import Mathlib

/-!
Verification of the broker-synchronization ETL job (`sync_api.py`).

The development shallowly embeds the script's core functions:
  * `prepare_data`      — the record-normalization stage (pandas frame ops,
                          modelled cell-wise over the six projected columns);
  * `make_safe_request` — the retrying HTTP fetch with timeout backoff;
  * the pagination loop of `main` (page 1, then pages `2..total_de_paginas`);
  * `upsert_batch`      — the batched sink write with its exception guard;
  * the batched persist loop of `main` with its per-record degrade path;
  * an upsert-keyed sink model (conflict key `idcorretor`, replace on match,
    insert otherwise) used to settle idempotence of persistence.

External collaborators (requests, pandas datetime parsing, the Supabase
table) are modelled by their observable contracts at the call sites.
-/

set_option autoImplicit false

namespace SyncApi

/-! ## Raw and normalized scalar values

A `RawValue` is a JSON scalar as it lands in the dataframe built from the
API's `dados` list: a string, an integer, a boolean, or a null (a missing
field or JSON null, which pandas holds as NaN/None).  A `NValue` is a cell
after `prepare_data`: a string or an explicit null (Python `None`). -/

inductive RawValue where
  | vstr (s : String)
  | vint (n : Int)
  | vbool (b : Bool)
  | vnull
  deriving DecidableEq, Repr

inductive NValue where
  | str (s : String)
  | null
  deriving DecidableEq, Repr

/-- Cell-wise `df.astype(str)`: Python `str()` of the cell.  A null cell
(NaN) stringifies to `"nan"`; booleans to `"True"`/`"False"`. -/
def pyStr : RawValue → String
  | .vstr s => s
  | .vint n => toString n
  | .vbool true => "True"
  | .vbool false => "False"
  | .vnull => "nan"

/-- Cell-wise `fillna('')`: replaces a null cell by the empty string and
leaves every other cell unchanged.  In `prepare_data` it runs after
`astype(str)`, whose output holds no nulls. -/
def fillnaEmpty : NValue → NValue
  | .null => .str ""
  | v => v

/-! ## Dates

`pd.to_datetime(_, errors='coerce')` parses a timestamp or yields NaT.  We
model it on the canonical `YYYY-MM-DD HH:MM:SS` layout the upstream API
emits; any other string (in particular `"nan"`, `"None"`, malformed text)
coerces to NaT (`none`). -/

structure PDate where
  year : Nat
  month : Nat
  day : Nat
  hour : Nat
  minute : Nat
  second : Nat
  deriving DecidableEq, Repr

def digitsToNat (cs : List Char) : Option Nat :=
  if cs ≠ [] ∧ cs.all Char.isDigit then
    some (cs.foldl (fun acc c => acc * 10 + (c.toNat - 48)) 0)
  else none

/-- Model of `pd.to_datetime(s, errors='coerce')` restricted to the
`YYYY-MM-DD HH:MM:SS` layout: `some` parsed timestamp, or `none` (NaT). -/
def to_datetime (s : String) : Option PDate :=
  let cs := s.data
  if cs.length = 19 ∧ cs.get? 4 = some '-' ∧ cs.get? 7 = some '-' ∧
      cs.get? 10 = some ' ' ∧ cs.get? 13 = some ':' ∧ cs.get? 16 = some ':' then
    match digitsToNat (cs.take 4), digitsToNat ((cs.drop 5).take 2),
        digitsToNat ((cs.drop 8).take 2), digitsToNat ((cs.drop 11).take 2),
        digitsToNat ((cs.drop 14).take 2), digitsToNat ((cs.drop 17).take 2) with
    | some y, some mo, some d, some h, some mi, some se =>
      if 1 ≤ mo ∧ mo ≤ 12 ∧ 1 ≤ d ∧ d ≤ 31 ∧ h ≤ 23 ∧ mi ≤ 59 ∧ se ≤ 59 then
        some ⟨y, mo, d, h, mi, se⟩
      else none
    | _, _, _, _, _, _ => none
  else none

def pad2 (n : Nat) : String :=
  if n < 10 then "0" ++ toString n else toString n

def pad4 (n : Nat) : String :=
  if n < 10 then "000" ++ toString n
  else if n < 100 then "00" ++ toString n
  else if n < 1000 then "0" ++ toString n
  else toString n

/-- Python `Timestamp.isoformat()` for a timezone-free timestamp. -/
def PDate.isoformat (d : PDate) : String :=
  pad4 d.year ++ "-" ++ pad2 d.month ++ "-" ++ pad2 d.day ++ "T" ++
    pad2 d.hour ++ ":" ++ pad2 d.minute ++ ":" ++ pad2 d.second

/-- The NUL character stripped by the sanitization pass. -/
def nulChar : Char := Char.ofNat 0

/-- The lambda body `x.replace('\x00', '')` on a string: the single-character pattern makes
it a filter over the characters. -/
def stripNul (s : String) : String :=
  ⟨s.data.filter (fun c => c ≠ nulChar)⟩

/-- The applymap lambda: strips NULs from a string cell, leaves a null
(non-string) cell unchanged. -/
def stripNulCell : NValue → NValue
  | .str s => .str (stripNul s)
  | .null => .null

/-! ## Records and columns -/

/-- The six projected columns (`cols_necessarias`). -/
inductive Col where
  | idcorretor | ativo_login | nome | documento | data_cad | idimobiliaria
  deriving DecidableEq, Repr

/-- A raw API record, projected to the six required columns. -/
structure RawRecord where
  idcorretor : RawValue
  ativo_login : RawValue
  nome : RawValue
  documento : RawValue
  data_cad : RawValue
  idimobiliaria : RawValue
  deriving DecidableEq, Repr

/-- A normalized record, as handed to the sink. -/
structure NRecord where
  idcorretor : NValue
  ativo_login : NValue
  nome : NValue
  documento : NValue
  data_cad : NValue
  idimobiliaria : NValue
  deriving DecidableEq, Repr

def RawRecord.get (r : RawRecord) : Col → RawValue
  | .idcorretor => r.idcorretor
  | .ativo_login => r.ativo_login
  | .nome => r.nome
  | .documento => r.documento
  | .data_cad => r.data_cad
  | .idimobiliaria => r.idimobiliaria

def NRecord.get (r : NRecord) : Col → NValue
  | .idcorretor => r.idcorretor
  | .ativo_login => r.ativo_login
  | .nome => r.nome
  | .documento => r.documento
  | .data_cad => r.data_cad
  | .idimobiliaria => r.idimobiliaria

def NRecord.values (r : NRecord) : List NValue :=
  [r.idcorretor, r.ativo_login, r.nome, r.documento, r.data_cad, r.idimobiliaria]

/-! ## `prepare_data`

The three passes of the source function, cell-wise over one record:
  1. `df.astype(str).fillna('')`;
  2. the `data_cad` rewrite: `to_datetime(..., errors='coerce')` then
     `x.isoformat() if not pd.isna(x) else None` (`other_date_cols` is empty
     for the six projected columns, so that loop is a no-op);
  3. `applymap(lambda x: x.replace('\x00','') if isinstance(x,str) else x)`. -/

def astypeStrFillna (v : RawValue) : NValue :=
  fillnaEmpty (.str (pyStr v))

def dataCadPass (v : NValue) : NValue :=
  match v with
  | .str s =>
    match to_datetime s with
    | some d => .str d.isoformat
    | none => .null
  | .null =>
    match to_datetime "nan" with
    | some d => .str d.isoformat
    | none => .null

def prepare_record (r : RawRecord) : NRecord :=
  let p1 : NRecord :=
    ⟨astypeStrFillna r.idcorretor, astypeStrFillna r.ativo_login,
      astypeStrFillna r.nome, astypeStrFillna r.documento,
      astypeStrFillna r.data_cad, astypeStrFillna r.idimobiliaria⟩
  let p2 : NRecord := { p1 with data_cad := dataCadPass p1.data_cad }
  ⟨stripNulCell p2.idcorretor, stripNulCell p2.ativo_login,
    stripNulCell p2.nome, stripNulCell p2.documento,
    stripNulCell p2.data_cad, stripNulCell p2.idimobiliaria⟩

/-- The function `prepare_data` over the whole frame, row-wise (column operations act
cell-wise and preserve row order). -/
def prepare_data (rs : List RawRecord) : List NRecord :=
  rs.map prepare_record

/-! ## `make_safe_request`

One `session.get` attempt either returns a parsed body, raises a
`Timeout`, or raises another `RequestException`; a behavior function gives
the outcome of each numbered attempt.  The embedding returns the result
together with the number of attempts performed and the list of backoff
waits requested (`2 ** attempt` before each retry), mirroring the
`time.sleep(wait_time)` and the recursive self-call of the source. -/

inductive ReqOutcome (Body : Type) where
  | success (body : Body)
  | timeout
  | reqError
  deriving DecidableEq, Repr

inductive FetchErr where
  | timeout
  | reqError
  deriving DecidableEq, Repr

structure FetchResult (Body : Type) where
  result : Except FetchErr Body
  attemptsMade : Nat
  waits : List Nat
  deriving Repr

def make_safe_request {Body : Type} (behavior : Nat → ReqOutcome Body)
    (attempt : Nat) (maxAttempts : Nat) : FetchResult Body :=
  match behavior attempt with
  | .success b => ⟨.ok b, 1, []⟩
  | .timeout =>
    if h : attempt < maxAttempts then
      let rest := make_safe_request behavior (attempt + 1) maxAttempts
      ⟨rest.result, rest.attemptsMade + 1, 2 ^ attempt :: rest.waits⟩
    else ⟨.error .timeout, 1, []⟩
  | .reqError => ⟨.error .reqError, 1, []⟩
termination_by maxAttempts - attempt

/-! ## The pagination loop of `main`

The API is a function from a page number (`pagina`) to a response carrying
`dados` (the page's records) and, when present, `total_de_paginas`.  The
loop fetches page 1, reads `total_pages = initial_data.get('total_de_paginas', 1)`,
then for `page in range(2, total_pages + 1)` fetches the page, appends its
records and sleeps one second.  The trace records fetches and sleeps in
program order. -/

structure ApiResponse (R : Type) where
  dados : List R
  total_de_paginas : Option Nat

inductive PageEvent where
  | fetch (pagina : Nat)
  | sleep (secs : Nat)
  deriving DecidableEq, Repr

structure FetchStage (R : Type) where
  records : List R
  events : List PageEvent

/-- One iteration of the page loop: fetch page `p`, append its records,
sleep 1 second. -/
def pageStep {R : Type} (api : Nat → ApiResponse R) (st : FetchStage R)
    (p : Nat) : FetchStage R :=
  ⟨st.records ++ (api p).dados, st.events ++ [.fetch p, .sleep 1]⟩

/-- The fetch stage of `main`: page 1, then pages `2..total_pages`, with
`total_pages = initial_data.get('total_de_paginas', 1)`. -/
def fetchStage {R : Type} (api : Nat → ApiResponse R) : FetchStage R :=
  (List.range' 2 ((api 1).total_de_paginas.getD 1 - 1)).foldl (pageStep api)
    ⟨(api 1).dados, [.fetch 1]⟩

/-! ## `upsert_batch`

The body runs `json.dumps(batch)` (may raise), then the table upsert (may
raise, or return a response whose `error` field may be set); any exception
is caught and turned into `False`; a truthy `error` also yields `False`.
A call's environment is summarized by whether serialization succeeds and
by the sink call's outcome. -/

inductive SinkResp where
  | raised
  | respond (hasError : Bool)
  deriving DecidableEq, Repr

def upsert_batch (serOk : Bool) (resp : SinkResp) : Bool :=
  if serOk then
    match resp with
    | .raised => false
    | .respond hasError => !hasError
  else false

/-! ## The persist loop of `main`

`dados` is cut into slices of `batch_size = 50` (`dados[i:i+batch_size]`
for `i in range(0, total_registros, batch_size)`).  For each batch, a
failed `upsert_batch` triggers one `upsert_batch` per record of the batch,
and a record whose individual upsert also fails is logged with its
`idcorretor`.  The loop is parameterized by `ub`, the boolean result of
`upsert_batch` on a given payload (list of records). -/

/-- Slicing `[dados[i:i+n] for i in range(0, len(dados), n)]`: the `idx`-th batch
is the slice starting at `idx * n`, and `range(0, total, n)` has
`⌈total / n⌉` indices. -/
def toBatches {α : Type} (n : Nat) (xs : List α) : List (List α) :=
  (List.range ((xs.length + n - 1) / n)).map (fun i => (xs.drop (i * n)).take n)

structure PersistState where
  calls : List (List NRecord)
  permFailLogs : List NValue
  deriving Repr

/-- Process one batch: the batch-level call, then — on failure — the
per-record calls with failure logging. -/
def persistBatch (ub : List NRecord → Bool) (st : PersistState)
    (batch : List NRecord) : PersistState :=
  if ub batch then ⟨st.calls ++ [batch], st.permFailLogs⟩
  else
    batch.foldl
      (fun acc r =>
        if ub [r] then ⟨acc.calls ++ [[r]], acc.permFailLogs⟩
        else ⟨acc.calls ++ [[r]], acc.permFailLogs ++ [r.idcorretor]⟩)
      ⟨st.calls ++ [batch], st.permFailLogs⟩

/-- The whole persist loop over all batches. -/
def persistStage (ub : List NRecord → Bool) (dados : List NRecord) :
    PersistState :=
  (toBatches 50 dados).foldl (persistBatch ub) ⟨[], []⟩

/-- The final line printed by `main` after the persist loop: it carries
`total_registros` and nothing else. -/
def doneMessage (dados : List NRecord) : String :=
  "Processo concluido! Total de registros processados: " ++
    toString dados.length

/-! ## The sink model for idempotence

The remote table keyed by the conflict key `idcorretor`: an upsert
replaces the row whose key matches, and appends the record otherwise.
A batched upsert applies the records in order. -/

def upsertOne : List NRecord → NRecord → List NRecord
  | [], r => [r]
  | x :: rest, r =>
    if x.idcorretor = r.idcorretor then r :: rest
    else x :: upsertOne rest r

def upsertMany (st : List NRecord) (rs : List NRecord) : List NRecord :=
  rs.foldl upsertOne st

/-- The sink state after the persist stage runs over `dados` with every
call accepted: each batch's upsert applies its records in order. -/
def persistSink (st : List NRecord) (dados : List NRecord) : List NRecord :=
  (toBatches 50 dados).foldl upsertMany st

def sinkKeys (st : List NRecord) : List NValue :=
  st.map NRecord.idcorretor

/-- The row of the table whose conflict key is `k` (the first match). -/
def sinkFind : List NRecord → NValue → Option NRecord
  | [], _ => none
  | x :: rest, k => if x.idcorretor = k then some x else sinkFind rest k

/-- The last record of `rs` whose conflict key is `k`, if any — the value
an upsert sequence leaves under key `k`. -/
def lastUpd (k : NValue) (rs : List NRecord) : Option NRecord :=
  rs.foldl (fun acc r => if r.idcorretor = k then some r else acc) none

/-- Option `fallback o i` is `o` when set, else `i`. -/
def fallback (o : Option NRecord) (i : Option NRecord) : Option NRecord :=
  match o with
  | some v => some v
  | none => i

/-- The keys an upsert sequence `rs` adds to a table already holding keys
`ks`, in first-appearance order. -/
def newKeys (ks : List NValue) : List NRecord → List NValue
  | [] => []
  | r :: rs =>
    if r.idcorretor ∈ ks then newKeys ks rs
    else r.idcorretor :: newKeys (ks ++ [r.idcorretor]) rs

/-- The `pagina` values of the fetches in an event trace, in order. -/
def fetchPages (evs : List PageEvent) : List Nat :=
  evs.filterMap (fun e =>
    match e with
    | .fetch p => some p
    | .sleep _ => none)

/-- A pause separates the fetches of pages `i` and `i + 1` in the trace:
some sleep event lies strictly between them. -/
def pauseBetween (evs : List PageEvent) (i : Nat) : Prop :=
  ∃ a b c, a < b ∧ b < c ∧
    evs.get? a = some (.fetch i) ∧
    (∃ s, evs.get? b = some (.sleep s)) ∧
    evs.get? c = some (.fetch (i + 1))

/-- What the persist stage of `main` makes observable: the persist loop's
state (calls and per-record failure logs) and the final printed line. -/
def mainPersistOutput (ub : List NRecord → Bool) (dados : List NRecord) :
    PersistState × String :=
  (persistStage ub dados, doneMessage dados)

/-! ## Concrete inputs used by the witnesses and counterexamples -/

/-- A synthetic API declaring 3 pages, two records per page. -/
def api3 : Nat → ApiResponse Nat :=
  fun p => ⟨[p * 10, p * 10 + 1], if p = 1 then some 3 else none⟩

/-- A synthetic API declaring 2 pages. -/
def api2 : Nat → ApiResponse Nat :=
  fun p => ⟨[p], if p = 1 then some 2 else none⟩

/-- A synthetic API whose page 1 carries no `total_de_paginas`. -/
def apiNoTotal : Nat → ApiResponse Nat :=
  fun p => ⟨[p, p + 100], none⟩

def rw1 : NRecord := ⟨.str "1", .str "True", .str "ana", .str "d1", .null, .str "7"⟩

def rw2 : NRecord := ⟨.str "2", .str "False", .str "bia", .str "d2", .null, .str "7"⟩

def rw3 : NRecord := ⟨.str "3", .str "True", .str "cai", .str "d3", .null, .str "8"⟩

/-- An `upsert_batch` result function that fails the two-record batch
`[rw1, rw2]` and the singleton `[rw2]`, and accepts everything else. -/
def ubEx : List NRecord → Bool :=
  fun l => decide (l ≠ [rw1, rw2] ∧ l ≠ [rw2])

/-- A raw record whose `nome` and `data_cad` are null. -/
def rexNull : RawRecord := ⟨.vint 1, .vbool true, .vnull, .vstr "doc", .vnull, .vint 2⟩

/-- A raw record with a parsable date, a NUL byte in `documento`, and a
clean name. -/
def rexClean : RawRecord :=
  ⟨.vint 9, .vbool false, .vstr "ana", .vstr "do\x00c", .vstr "2020-05-01 10:20:30", .vint 3⟩

/-- The two policies the specification offers for absent/null source
values: every null becomes empty text, or every null becomes an explicit
null. -/
def nullsToEmpty : Prop :=
  ∀ (r : RawRecord) (c : Col), r.get c = RawValue.vnull →
    (prepare_record r).get c = NValue.str ""

def nullsToNull : Prop :=
  ∀ (r : RawRecord) (c : Col), r.get c = RawValue.vnull →
    (prepare_record r).get c = NValue.null

/-! # Theorems -/

/-- Closed form of `make_safe_request` when every attempt times out:
starting at attempt `a` with `m - a = n` retries left, it performs
`n + 1` attempts, waits `2 ^ a, …, 2 ^ (m - 1)` seconds, and propagates
the timeout. -/
theorem msr_allTimeout {Body : Type} (beh : Nat → ReqOutcome Body)
    (h : ∀ a, beh a = .timeout) :
    ∀ (n a m : Nat), m - a = n → a ≤ m →
      make_safe_request beh a m =
        ⟨.error .timeout, n + 1, (List.range' a n).map (fun k => 2 ^ k)⟩ := by
  intro n
  induction n with
  | zero =>
    intro a m hn ham
    unfold make_safe_request
    rw [h a]
    have hlt : ¬ a < m := by omega
    simp [hlt]
  | succ k ih =>
    intro a m hn ham
    unfold make_safe_request
    rw [h a]
    have hlt : a < m := by omega
    simp only [hlt, dif_pos]
    rw [ih (a + 1) m (by omega) (by omega)]
    simp [List.range'_succ]

/-- C4: on a timeout the fetcher retries with a `2 ^ attempt`-second
wait before each retry, up to `max_attempts` total attempts, and
propagates the timeout on exhaustion: a fetch timing out on every attempt
makes exactly `m` attempts (waiting `2 ^ 1, …, 2 ^ (m - 1)` seconds) and
returns the timeout error, and a fetch timing out only on attempt 1
succeeds on attempt 2 after a single `2 ^ 1 = 2`-second wait. -/
theorem make_safe_request_timeout_policy {Body : Type}
    (m : Nat) (body : Body) (behAll behOnce : Nat → ReqOutcome Body)
    (hAll : ∀ a, behAll a = .timeout)
    (h1 : behOnce 1 = .timeout) (h2 : behOnce 2 = .success body)
    (hm : 2 ≤ m) :
    make_safe_request behAll 1 m =
      ⟨.error .timeout, m, (List.range' 1 (m - 1)).map (fun k => 2 ^ k)⟩ ∧
    make_safe_request behOnce 1 m = ⟨.ok body, 2, [2]⟩ := by
  constructor
  · have hc := msr_allTimeout behAll hAll (m - 1) 1 m (by omega) (by omega)
    rw [hc]
    have hm1 : m - 1 + 1 = m := by omega
    rw [hm1]
  · have inner : make_safe_request behOnce 2 m = ⟨.ok body, 1, []⟩ := by
      unfold make_safe_request
      rw [h2]
    unfold make_safe_request
    rw [h1]
    have hlt : 1 < m := by omega
    simp [hlt, inner]

/-- Witness for C4 at `m = 3` with concrete attempt behaviors. -/
theorem make_safe_request_timeout_policy_witness :
    make_safe_request (fun _ => (ReqOutcome.timeout : ReqOutcome Nat)) 1 3 =
      ⟨.error .timeout, 3, [2, 4]⟩ ∧
    make_safe_request
        (fun a => if a = 1 then ReqOutcome.timeout else .success 42) 1 3 =
      ⟨.ok 42, 2, [2]⟩ := by
  have h := make_safe_request_timeout_policy 3 42
    (fun _ => ReqOutcome.timeout)
    (fun a => if a = 1 then ReqOutcome.timeout else .success 42)
    (fun _ => rfl) rfl rfl (by omega)
  exact ⟨by rw [h.1]; rfl, h.2⟩

/-- The attempt counter of `make_safe_request` is bounded: with at most
`n` retries available (`m - a ≤ n`), at most `n + 1` attempts happen,
whatever the per-attempt outcomes are. -/
theorem msr_bound {Body : Type} (beh : Nat → ReqOutcome Body) :
    ∀ (n a m : Nat), m - a ≤ n →
      (make_safe_request beh a m).attemptsMade ≤ n + 1 := by
  intro n
  induction n with
  | zero =>
    intro a m hn
    unfold make_safe_request
    cases hba : beh a with
    | success b => simp
    | timeout =>
      have hlt : ¬ a < m := by omega
      simp [hlt]
    | reqError => simp
  | succ k ih =>
    intro a m hn
    unfold make_safe_request
    cases hba : beh a with
    | success b => simp
    | timeout =>
      by_cases hlt : a < m
      · simp only [hlt, dif_pos]
        have hrec := ih (a + 1) m (by omega)
        simp
        omega
      · simp [hlt]
    | reqError => simp

/-- C10: the function `make_safe_request` terminates on every input (it is a total
function of its behavior and bounds) and, starting from attempt `a` with
`1 ≤ a ≤ max_attempts = m`, performs at most `m - a + 1` attempts; in
particular a fetch started at attempt 1 never exceeds `m` attempts. -/
theorem make_safe_request_attempt_bound {Body : Type}
    (beh : Nat → ReqOutcome Body) (a m : Nat) (ha : 1 ≤ a) (ham : a ≤ m) :
    (make_safe_request beh a m).attemptsMade ≤ m - a + 1 ∧
    (make_safe_request beh 1 m).attemptsMade ≤ m := by
  constructor
  · exact msr_bound beh (m - a) a m le_rfl
  · have h := msr_bound beh (m - 1) 1 m le_rfl
    omega

/-- Witness for C10: all-timeout behavior, starting attempt 2 of 3. -/
theorem make_safe_request_attempt_bound_witness :
    (make_safe_request (fun _ => (ReqOutcome.timeout : ReqOutcome Nat))
        2 3).attemptsMade ≤ 3 - 2 + 1 ∧
    (make_safe_request (fun _ => (ReqOutcome.timeout : ReqOutcome Nat))
        1 3).attemptsMade ≤ 3 :=
  make_safe_request_attempt_bound (fun _ => ReqOutcome.timeout) 2 3
    (by omega) (by omega)

/-- C9: the function `upsert_batch` is total over failure modes: it returns `false`
when JSON serialization of the batch fails, when the sink call raises,
and when the sink response carries an error indicator, and it returns
`true` exactly when serialization succeeds and the sink responds without
an error.  (In the embedding it is a total `Bool`-valued function, the
image of the source's catch-all `except` returning `False`.) -/
theorem upsert_batch_never_raises (serOk : Bool) (resp : SinkResp) :
    (serOk = false → upsert_batch serOk resp = false) ∧
    (resp = SinkResp.raised → upsert_batch serOk resp = false) ∧
    (resp = SinkResp.respond true → upsert_batch serOk resp = false) ∧
    (upsert_batch serOk resp = true ↔
      serOk = true ∧ resp = SinkResp.respond false) := by
  cases serOk <;> rcases resp with _ | e <;> simp [upsert_batch]

/-- Witness for C9: a failed serialization yields `false`. -/
theorem upsert_batch_never_raises_witness :
    upsert_batch false (SinkResp.respond false) = false :=
  (upsert_batch_never_raises false (SinkResp.respond false)).1 rfl

/-- Closed form of the page loop: folding `pageStep` over a page list
appends each page's records, and one `fetch`/`sleep` event pair per
page, to the accumulator. -/
theorem pageLoop_spec {R : Type} (api : Nat → ApiResponse R) :
    ∀ (ps : List Nat) (st : FetchStage R),
      ps.foldl (pageStep api) st =
        ⟨st.records ++ (ps.map (fun p => (api p).dados)).flatten,
          st.events ++ (ps.map (fun p => [PageEvent.fetch p, .sleep 1])).flatten⟩ := by
  intro ps
  induction ps with
  | nil => intro st; simp
  | cons p ps ih =>
    intro st
    simp only [List.foldl_cons, ih, pageStep, List.map_cons, List.flatten_cons,
      List.append_assoc]

/-- Closed form of the fetch stage when page 1 declares `N ≥ 1` pages. -/
theorem fetchStage_closed {R : Type} (api : Nat → ApiResponse R) (N : Nat)
    (hN : (api 1).total_de_paginas = some N) (h1 : 1 ≤ N) :
    fetchStage api =
      ⟨((List.range' 1 N).map (fun p => (api p).dados)).flatten,
        .fetch 1 :: ((List.range' 2 (N - 1)).map
          (fun p => [PageEvent.fetch p, .sleep 1])).flatten⟩ := by
  unfold fetchStage
  rw [hN]
  simp only [Option.getD_some]
  rw [pageLoop_spec]
  have hr : List.range' 1 N = 1 :: List.range' 2 (N - 1) := by
    have hN' : N = (N - 1) + 1 := by omega
    rw [hN', List.range'_succ]
    simp
  rw [hr]
  simp

/-- The fetches in the loop's event pairs are exactly the page list. -/
theorem fetchPages_pairs : ∀ ps : List Nat,
    fetchPages ((ps.map (fun p => [PageEvent.fetch p, PageEvent.sleep 1])).flatten)
      = ps := by
  intro ps
  induction ps with
  | nil => rfl
  | cons p ps ih =>
    simp only [List.map_cons, List.flatten_cons]
    simp [fetchPages, List.filterMap_append] at ih ⊢
    exact ih

/-- C3: with page 1 declaring `total_de_paginas = N ≥ 1`, the
paginator issues exactly `N` fetches with `pagina` values `1..N` in
ascending order and returns the pages' record lists concatenated in page
order (intra-page order preserved by concatenation); with
`total_de_paginas` absent it fetches only page 1, and with `N = 1` it
returns only page 1's records. -/
theorem paginator_complete {R : Type} (api : Nat → ApiResponse R) :
    (∀ N, (api 1).total_de_paginas = some N → 1 ≤ N →
      fetchPages (fetchStage api).events = List.range' 1 N ∧
      (fetchStage api).records =
        ((List.range' 1 N).map (fun p => (api p).dados)).flatten) ∧
    ((api 1).total_de_paginas = none →
      (fetchStage api).events = [.fetch 1] ∧
      (fetchStage api).records = (api 1).dados) ∧
    ((api 1).total_de_paginas = some 1 →
      (fetchStage api).records = (api 1).dados) := by
  refine ⟨?_, ?_, ?_⟩
  · intro N hN h1
    rw [fetchStage_closed api N hN h1]
    refine ⟨?_, rfl⟩
    have hr : List.range' 1 N = 1 :: List.range' 2 (N - 1) := by
      have hN' : N = (N - 1) + 1 := by omega
      rw [hN', List.range'_succ]
      simp
    rw [hr]
    have hp := fetchPages_pairs (List.range' 2 (N - 1))
    simp only [fetchPages] at hp ⊢
    simp [List.filterMap_cons, hp]
  · intro h
    unfold fetchStage
    rw [h]
    simp [List.range']
  · intro h
    rw [fetchStage_closed api 1 h (by omega)]
    simp [List.range']

/-- Witness for C3: a 3-page API, fetches `1..3`, records concatenated in
page order. -/
theorem paginator_complete_witness :
    fetchPages (fetchStage api3).events = List.range' 1 3 ∧
    (fetchStage api3).records =
      ((List.range' 1 3).map (fun p => (api3 p).dados)).flatten :=
  (paginator_complete api3).1 3 rfl (by omega)

/-- C8 counterexample: for the two-page API `api2`, the event trace is
`[fetch 1, fetch 2, sleep 1]`: no pause separates the fetch of page 1 from
the fetch of page 2, refuting the claim that a pause occurs between every
pair of successive fetches (`i = 1` fails). -/
theorem pause_between_counterexample :
    (api2 1).total_de_paginas = some 2 ∧
    (fetchStage api2).events = [.fetch 1, .fetch 2, .sleep 1] ∧
    ¬ pauseBetween (fetchStage api2).events 1 := by
  have hev : (fetchStage api2).events = [.fetch 1, .fetch 2, .sleep 1] := rfl
  refine ⟨rfl, hev, ?_⟩
  rw [hev]
  rintro ⟨a, b, c, hab, hbc, ha, ⟨s, hb⟩, hc⟩
  have hc3 : c < 3 := by
    by_contra hge
    push_neg at hge
    rw [List.get?_eq_none.mpr (by simpa using hge)] at hc
    exact Option.noConfusion hc
  interval_cases c
  · simp [List.get?] at hc
  · have hb0 : b = 0 := by omega
    subst hb0
    simp [List.get?] at hb
  · simp [List.get?] at hc

/-- C8 amended: the 1-second pause follows each fetched page in
`2..N`: the trace is `fetch 1` followed by a `fetch p, sleep 1` pair for
each `p` in `2..N` — so a pause separates successive fetches only from
page 2 onwards (none between pages 1 and 2, one trailing after page `N`),
and no pause precedes the first fetch. -/
theorem pause_placement {R : Type} (api : Nat → ApiResponse R) (N : Nat)
    (hN : (api 1).total_de_paginas = some N) (h1 : 1 ≤ N) :
    (fetchStage api).events =
      .fetch 1 :: ((List.range' 2 (N - 1)).map
        (fun p => [PageEvent.fetch p, .sleep 1])).flatten ∧
    (fetchStage api).events.head? = some (.fetch 1) := by
  rw [fetchStage_closed api N hN h1]
  exact ⟨rfl, rfl⟩

/-- Witness for the amended C8 at the three-page API. -/
theorem pause_placement_witness :
    (fetchStage api3).events =
      .fetch 1 :: ((List.range' 2 (3 - 1)).map
        (fun p => [PageEvent.fetch p, .sleep 1])).flatten ∧
    (fetchStage api3).events.head? = some (.fetch 1) :=
  pause_placement api3 3 rfl (by omega)

/-- Closed form of the per-record degrade fold inside `persistBatch`: one
individual call per record of the batch, in order, and one failure log per
record whose individual upsert fails. -/
theorem persistBatch_inner (ub : List NRecord → Bool) :
    ∀ (b : List NRecord) (acc : PersistState),
      b.foldl
        (fun acc r =>
          if ub [r] then ⟨acc.calls ++ [[r]], acc.permFailLogs⟩
          else ⟨acc.calls ++ [[r]], acc.permFailLogs ++ [r.idcorretor]⟩)
        acc =
      ⟨acc.calls ++ b.map (fun r => [r]),
        acc.permFailLogs ++
          (b.filter (fun r => !(ub [r]))).map NRecord.idcorretor⟩ := by
  intro b
  induction b with
  | nil => intro acc; simp
  | cons r b ih =>
    intro acc
    simp only [List.foldl_cons]
    by_cases h : ub [r] = true
    · simp only [h, if_true, ih, List.filter_cons, Bool.not_true, List.map_cons]
      simp [List.append_assoc]
    · simp only [Bool.not_eq_true] at h
      simp only [h, Bool.false_eq_true, if_false, ih, List.filter_cons,
        Bool.not_false, List.map_cons]
      simp [List.append_assoc]

/-- Closed form of `persistBatch`. -/
theorem persistBatch_closed (ub : List NRecord → Bool) (st : PersistState)
    (b : List NRecord) :
    persistBatch ub st b =
      if ub b then ⟨st.calls ++ [b], st.permFailLogs⟩
      else ⟨st.calls ++ [b] ++ b.map (fun r => [r]),
        st.permFailLogs ++
          (b.filter (fun r => !(ub [r]))).map NRecord.idcorretor⟩ := by
  unfold persistBatch
  by_cases h : ub b = true
  · simp [h]
  · simp only [Bool.not_eq_true] at h
    simp only [h, Bool.false_eq_true, if_false, persistBatch_inner]

/-- Closed form of the whole persist loop, generalized over the initial
accumulator. -/
theorem persistFold_closed (ub : List NRecord → Bool) :
    ∀ (bs : List (List NRecord)) (st : PersistState),
      bs.foldl (persistBatch ub) st =
        ⟨st.calls ++ (bs.map (fun b =>
            if ub b then [b] else [b] ++ b.map (fun r => [r]))).flatten,
          st.permFailLogs ++ (bs.map (fun b =>
            if ub b then ([] : List NValue) else
              (b.filter (fun r => !(ub [r]))).map NRecord.idcorretor)).flatten⟩ := by
  intro bs
  induction bs with
  | nil => intro st; simp
  | cons b bs ih =>
    intro st
    simp only [List.foldl_cons, persistBatch_closed, List.map_cons,
      List.flatten_cons]
    by_cases h : ub b = true
    · simp [h, ih, List.append_assoc]
    · simp only [Bool.not_eq_true] at h
      simp [h, ih, List.append_assoc]

/-- Closed form of `persistStage`. -/
theorem persistStage_closed (ub : List NRecord → Bool) (dados : List NRecord) :
    persistStage ub dados =
      ⟨((toBatches 50 dados).map (fun b =>
          if ub b then [b] else [b] ++ b.map (fun r => [r]))).flatten,
        ((toBatches 50 dados).map (fun b =>
          if ub b then ([] : List NValue) else
            (b.filter (fun r => !(ub [r]))).map NRecord.idcorretor)).flatten⟩ := by
  unfold persistStage
  rw [persistFold_closed]
  simp

/-- C1: the persist loop never aborts the run on a failed batch: every
batch is attempted (the run reaches every batch whatever earlier failures
happened), a batch whose sink call fails has every one of its records
retried by an individual upsert (none skipped), and a record whose
individual upsert also fails is logged with its `idcorretor`.  The loop is
a total function of the sink's answers — per-record failures never make it
raise. -/
theorem persist_degrade_isolation (ub : List NRecord → Bool)
    (dados : List NRecord) :
    (∀ b ∈ toBatches 50 dados, b ∈ (persistStage ub dados).calls) ∧
    (∀ b ∈ toBatches 50 dados, ub b = false →
      ∀ r ∈ b, [r] ∈ (persistStage ub dados).calls) ∧
    (∀ b ∈ toBatches 50 dados, ub b = false →
      ∀ r ∈ b, ub [r] = false →
        r.idcorretor ∈ (persistStage ub dados).permFailLogs) := by
  rw [persistStage_closed]
  refine ⟨?_, ?_, ?_⟩
  · intro b hb
    simp only [List.mem_flatten, List.mem_map]
    refine ⟨_, ⟨b, hb, rfl⟩, ?_⟩
    by_cases h : ub b = true <;> simp [h]
  · intro b hb hfail r hr
    simp only [List.mem_flatten, List.mem_map]
    refine ⟨_, ⟨b, hb, rfl⟩, ?_⟩
    simp only [hfail, Bool.false_eq_true, if_false, List.mem_append,
      List.mem_map]
    exact Or.inr ⟨r, hr, rfl⟩
  · intro b hb hfail r hr hrfail
    simp only [List.mem_flatten, List.mem_map]
    refine ⟨_, ⟨b, hb, rfl⟩, ?_⟩
    simp only [hfail, Bool.false_eq_true, if_false, List.mem_map]
    refine ⟨r, ?_, rfl⟩
    simp [List.mem_filter, hr, hrfail]

/-- Witness for C1: a two-record run whose single batch fails, `rw1`
succeeding individually and `rw2` failing permanently — the batch call,
both individual calls, and `rw2`'s failure log all occur. -/
theorem persist_degrade_isolation_witness :
    [rw1, rw2] ∈ (persistStage ubEx [rw1, rw2]).calls ∧
    [rw1] ∈ (persistStage ubEx [rw1, rw2]).calls ∧
    [rw2] ∈ (persistStage ubEx [rw1, rw2]).calls ∧
    NRecord.idcorretor rw2 ∈ (persistStage ubEx [rw1, rw2]).permFailLogs := by
  have h := persist_degrade_isolation ubEx [rw1, rw2]
  have hb : [rw1, rw2] ∈ toBatches 50 [rw1, rw2] := by decide
  have hfail : ubEx [rw1, rw2] = false := by decide
  exact ⟨h.1 [rw1, rw2] hb,
    h.2.1 [rw1, rw2] hb hfail rw1 (by decide),
    h.2.1 [rw1, rw2] hb hfail rw2 (by decide),
    h.2.2 [rw1, rw2] hb hfail rw2 (by decide) (by decide)⟩

/-- C7 counterexample: two runs over the same single-record input, one
with a sink that fails everything (one permanent failure) and one with a
sink that accepts everything (no failure), produce the identical final
report: the run's `Done` output carries only the record total, so neither
the persist loop's value nor the `Done` report carries the permanent
failure count the claim promises. -/
theorem persist_report_counterexample :
    (persistStage (fun _ => false) [rw3]).permFailLogs.length = 1 ∧
    (persistStage (fun _ => true) [rw3]).permFailLogs.length = 0 ∧
    (mainPersistOutput (fun _ => false) [rw3]).2 =
      (mainPersistOutput (fun _ => true) [rw3]).2 := by
  refine ⟨by decide, by decide, rfl⟩

/-- C7 amended: the persist loop returns no permanent-failure count:
permanent failures are only logged individually (exactly the records of
failed batches whose individual upsert also fails, with their
identifiers), and the run's final report carries only the total number of
records processed, for every sink behavior. -/
theorem persist_report_total_only (ub : List NRecord → Bool)
    (dados : List NRecord) :
    (mainPersistOutput ub dados).2 =
      "Processo concluido! Total de registros processados: " ++
        toString dados.length ∧
    (mainPersistOutput ub dados).1.permFailLogs =
      ((toBatches 50 dados).map (fun b =>
        if ub b then ([] : List NValue) else
          (b.filter (fun r => !(ub [r]))).map NRecord.idcorretor)).flatten := by
  constructor
  · rfl
  · show (persistStage ub dados).permFailLogs = _
    rw [persistStage_closed]

/-- Witness for the amended C7 at a concrete failing run. -/
theorem persist_report_total_only_witness :
    (mainPersistOutput (fun _ => false) [rw1]).2 =
      "Processo concluido! Total de registros processados: " ++
        toString (List.length [rw1]) ∧
    (mainPersistOutput (fun _ => false) [rw1]).1.permFailLogs =
      ((toBatches 50 [rw1]).map (fun b =>
        if (fun (_ : List NRecord) => false) b then ([] : List NValue) else
          (b.filter (fun r => !((fun (_ : List NRecord) => false) [r]))).map
            NRecord.idcorretor)).flatten :=
  persist_report_total_only (fun _ => false) [rw1]

/-- Flattening the first `m` slices of width `n` recovers a prefix. -/
theorem chunks_flatten_take {α : Type} (n : Nat) (xs : List α) :
    ∀ m, ((List.range m).map (fun i => (xs.drop (i * n)).take n)).flatten =
      xs.take (m * n) := by
  intro m
  induction m with
  | zero => simp
  | succ k ih =>
    rw [List.range_succ]
    simp only [List.map_append, List.flatten_append, ih, List.map_cons,
      List.map_nil, List.flatten_cons, List.flatten_nil, List.append_nil]
    rw [show (k + 1) * n = k * n + n by ring, List.take_add]

/-- The batches of size 50 partition the record list: flattening them
gives the list back. -/
theorem toBatches50_flatten {α : Type} (xs : List α) :
    (toBatches 50 xs).flatten = xs := by
  unfold toBatches
  rw [chunks_flatten_take]
  exact List.take_of_length_le (by omega)

/-- Applying the batches one upsert call after another equals one upsert
sequence over all records, in source order. -/
theorem persistSink_eq_upsertMany (st dados : List NRecord) :
    persistSink st dados = upsertMany st dados := by
  unfold persistSink
  conv_rhs => rw [← toBatches50_flatten dados]
  rw [show upsertMany st (toBatches 50 dados).flatten =
    (toBatches 50 dados).flatten.foldl upsertOne st from rfl]
  rw [List.foldl_flatten]
  rfl

theorem sinkKeys_cons (x : NRecord) (st : List NRecord) :
    sinkKeys (x :: st) = x.idcorretor :: sinkKeys st := rfl

/-- Lookup after a single upsert: the upserted record under its own key,
the old table elsewhere. -/
theorem sinkFind_upsertOne (st : List NRecord) (r : NRecord) (k : NValue) :
    sinkFind (upsertOne st r) k =
      if r.idcorretor = k then some r else sinkFind st k := by
  induction st with
  | nil =>
    by_cases h : r.idcorretor = k <;> simp [upsertOne, sinkFind, h]
  | cons x st ih =>
    by_cases hx : x.idcorretor = r.idcorretor
    · rw [show upsertOne (x :: st) r = r :: st from by simp [upsertOne, hx]]
      by_cases hk : r.idcorretor = k
      · simp [sinkFind, hk]
      · have hxk : ¬ x.idcorretor = k := by rw [hx]; exact hk
        simp [sinkFind, hk, hxk]
    · rw [show upsertOne (x :: st) r = x :: upsertOne st r from by
        simp [upsertOne, hx]]
      by_cases hxk : x.idcorretor = k
      · have hrk : ¬ r.idcorretor = k := by
          intro hr
          exact hx (by rw [hr, hxk])
        simp [sinkFind, hxk, hrk]
      · simp [sinkFind, hxk, ih]

/-- A key is absent from the table exactly when lookup yields nothing. -/
theorem sinkFind_eq_none (st : List NRecord) (k : NValue) :
    sinkFind st k = none ↔ k ∉ sinkKeys st := by
  induction st with
  | nil => simp [sinkFind, sinkKeys]
  | cons x st ih =>
    by_cases h : x.idcorretor = k
    · subst h
      simp [sinkFind, sinkKeys_cons]
    · rw [show sinkFind (x :: st) k = sinkFind st k from by simp [sinkFind, h],
        ih, sinkKeys_cons]
      constructor
      · intro hn hc
        rcases List.mem_cons.1 hc with rfl | hc2
        · exact h rfl
        · exact hn hc2
      · intro hn hm
        exact hn (List.mem_cons_of_mem _ hm)

/-- Tables with the same key sequence (without duplicates) and the same
lookups are equal. -/
theorem sink_ext : ∀ (s t : List NRecord),
    sinkKeys s = sinkKeys t → (sinkKeys s).Nodup →
    (∀ k, sinkFind s k = sinkFind t k) → s = t := by
  intro s
  induction s with
  | nil =>
    intro t hk _ _
    cases t with
    | nil => rfl
    | cons y t => simp [sinkKeys] at hk
  | cons x s ih =>
    intro t hk hnd hf
    cases t with
    | nil => simp [sinkKeys] at hk
    | cons y t =>
      rw [sinkKeys_cons, sinkKeys_cons] at hk
      injection hk with hxy htl
      have hx := hf x.idcorretor
      rw [show sinkFind (x :: s) x.idcorretor = some x from by simp [sinkFind],
        show sinkFind (y :: t) x.idcorretor = some y from by
          simp [sinkFind, hxy.symm]] at hx
      injection hx with hxy2
      subst hxy2
      rw [sinkKeys_cons] at hnd
      have hnd' := List.nodup_cons.1 hnd
      refine congrArg (x :: ·) (ih t htl hnd'.2 ?_)
      intro k
      by_cases hkx : k = x.idcorretor
      · subst hkx
        rw [(sinkFind_eq_none s _).2 hnd'.1,
          (sinkFind_eq_none t _).2 (htl ▸ hnd'.1)]
      · have hfk := hf k
        have hxk : ¬ x.idcorretor = k := fun h2 => hkx h2.symm
        rw [show sinkFind (x :: s) k = sinkFind s k from by simp [sinkFind, hxk],
          show sinkFind (x :: t) k = sinkFind t k from by
            simp [sinkFind, hxk]] at hfk
        exact hfk

theorem fallback_idem (o x : Option NRecord) :
    fallback o (fallback o x) = fallback o x := by
  cases o <;> rfl

/-- The last-writer fold, started from an arbitrary accumulator. -/
theorem lastUpd_init (k : NValue) :
    ∀ (rs : List NRecord) (i : Option NRecord),
      rs.foldl (fun acc r => if r.idcorretor = k then some r else acc) i =
        fallback (lastUpd k rs) i := by
  intro rs
  induction rs with
  | nil => intro i; rfl
  | cons r rs ih =>
    intro i
    simp only [List.foldl_cons]
    rw [ih]
    rw [show lastUpd k (r :: rs) =
      rs.foldl (fun acc r => if r.idcorretor = k then some r else acc)
        (if r.idcorretor = k then some r else none) from rfl, ih]
    by_cases h : r.idcorretor = k <;>
      cases hL : lastUpd k rs <;> simp [h, fallback]

/-- Lookup after an upsert sequence: the last write under the key wins,
falling back to the prior table. -/
theorem sinkFind_upsertMany :
    ∀ (rs st : List NRecord) (k : NValue),
      sinkFind (upsertMany st rs) k =
        fallback (lastUpd k rs) (sinkFind st k) := by
  intro rs
  induction rs with
  | nil => intro st k; rfl
  | cons r rs ih =>
    intro st k
    rw [show upsertMany st (r :: rs) = upsertMany (upsertOne st r) rs from rfl,
      ih, sinkFind_upsertOne]
    rw [show lastUpd k (r :: rs) =
      rs.foldl (fun acc r => if r.idcorretor = k then some r else acc)
        (if r.idcorretor = k then some r else none) from rfl, lastUpd_init]
    by_cases h : r.idcorretor = k <;>
      cases hL : lastUpd k rs <;> simp [h, fallback]

/-- Keys after a single upsert: unchanged on a hit, appended on a miss. -/
theorem sinkKeys_upsertOne (st : List NRecord) (r : NRecord) :
    sinkKeys (upsertOne st r) =
      if r.idcorretor ∈ sinkKeys st then sinkKeys st
      else sinkKeys st ++ [r.idcorretor] := by
  induction st with
  | nil => simp [upsertOne, sinkKeys]
  | cons x st ih =>
    by_cases hx : x.idcorretor = r.idcorretor
    · have hmem : r.idcorretor ∈ sinkKeys (x :: st) := by
        rw [sinkKeys_cons, hx]
        exact List.mem_cons_self _ _
      rw [if_pos hmem,
        show upsertOne (x :: st) r = r :: st from by simp [upsertOne, hx],
        sinkKeys_cons, sinkKeys_cons, hx]
    · rw [show upsertOne (x :: st) r = x :: upsertOne st r from by
        simp [upsertOne, hx], sinkKeys_cons]
      by_cases hm : r.idcorretor ∈ sinkKeys st
      · have hmem : r.idcorretor ∈ sinkKeys (x :: st) := by
          rw [sinkKeys_cons]
          exact List.mem_cons_of_mem _ hm
        rw [if_pos hmem, ih, if_pos hm, sinkKeys_cons]
      · have hmem : r.idcorretor ∉ sinkKeys (x :: st) := by
          rw [sinkKeys_cons]
          intro hc
          rcases List.mem_cons.1 hc with he | hc2
          · exact hx he.symm
          · exact hm hc2
        rw [if_neg hmem, ih, if_neg hm, sinkKeys_cons, List.cons_append]

/-- Keys after an upsert sequence: the old keys, then the genuinely new
keys in first-appearance order. -/
theorem sinkKeys_upsertMany :
    ∀ (rs st : List NRecord),
      sinkKeys (upsertMany st rs) =
        sinkKeys st ++ newKeys (sinkKeys st) rs := by
  intro rs
  induction rs with
  | nil => intro st; simp [upsertMany, newKeys]
  | cons r rs ih =>
    intro st
    rw [show upsertMany st (r :: rs) = upsertMany (upsertOne st r) rs from rfl,
      ih, sinkKeys_upsertOne]
    by_cases hm : r.idcorretor ∈ sinkKeys st
    · simp [hm, newKeys]
    · simp [hm, newKeys]

theorem newKeys_not_mem :
    ∀ (rs : List NRecord) (ks : List NValue) (k : NValue),
      k ∈ newKeys ks rs → k ∉ ks := by
  intro rs
  induction rs with
  | nil =>
    intro ks k h
    simp [newKeys] at h
  | cons r rs ih =>
    intro ks k h
    by_cases hm : r.idcorretor ∈ ks
    · rw [newKeys, if_pos hm] at h
      exact ih ks k h
    · rw [newKeys, if_neg hm] at h
      rcases List.mem_cons.1 h with rfl | h
      · exact hm
      · intro hk
        exact ih _ _ h (List.mem_append_left _ hk)

theorem newKeys_nodup :
    ∀ (rs : List NRecord) (ks : List NValue), (newKeys ks rs).Nodup := by
  intro rs
  induction rs with
  | nil => intro ks; simp [newKeys]
  | cons r rs ih =>
    intro ks
    by_cases hm : r.idcorretor ∈ ks
    · rw [newKeys, if_pos hm]
      exact ih ks
    · rw [newKeys, if_neg hm]
      refine List.Nodup.cons ?_ (ih _)
      intro hmem
      exact newKeys_not_mem rs _ _ hmem
        (List.mem_append_right _ (List.mem_singleton.2 rfl))

theorem newKeys_nil :
    ∀ (rs : List NRecord) (ks : List NValue),
      (∀ r ∈ rs, r.idcorretor ∈ ks) → newKeys ks rs = [] := by
  intro rs
  induction rs with
  | nil => intro ks _; rfl
  | cons r rs ih =>
    intro ks h
    rw [newKeys, if_pos (h r (List.mem_cons_self r rs))]
    exact ih ks (fun x hx => h x (List.mem_cons_of_mem r hx))

theorem mem_keys_after :
    ∀ (rs : List NRecord) (ks : List NValue) (r : NRecord),
      r ∈ rs → r.idcorretor ∈ ks ++ newKeys ks rs := by
  intro rs
  induction rs with
  | nil =>
    intro ks r h
    cases h
  | cons x rs ih =>
    intro ks r h
    by_cases hm : x.idcorretor ∈ ks
    · rw [newKeys, if_pos hm]
      rcases List.mem_cons.1 h with rfl | h
      · exact List.mem_append_left _ hm
      · exact ih ks r h
    · rw [newKeys, if_neg hm]
      rcases List.mem_cons.1 h with rfl | h
      · exact List.mem_append_right _ (List.mem_cons_self _ _)
      · have hmem := ih (ks ++ [x.idcorretor]) r h
        simp only [List.mem_append, List.mem_singleton, List.mem_cons] at hmem ⊢
        tauto

/-- C2: persistence is idempotent against a sink that upserts on the
conflict key `idcorretor` (replace on a matching key, insert otherwise):
starting from any table whose keys are distinct, running the persist
stage a second time with the same records changes neither the table's
content nor its row count. -/
theorem persist_idempotent (st dados : List NRecord)
    (h : (sinkKeys st).Nodup) :
    persistSink (persistSink st dados) dados = persistSink st dados ∧
    (persistSink (persistSink st dados) dados).length =
      (persistSink st dados).length := by
  have hall : ∀ r ∈ dados, r.idcorretor ∈ sinkKeys (upsertMany st dados) := by
    intro r hr
    rw [sinkKeys_upsertMany]
    exact mem_keys_after dados (sinkKeys st) r hr
  have hmain : upsertMany (upsertMany st dados) dados = upsertMany st dados := by
    apply sink_ext
    · rw [sinkKeys_upsertMany, newKeys_nil dados _ hall, List.append_nil]
    · rw [sinkKeys_upsertMany, newKeys_nil dados _ hall, List.append_nil,
        sinkKeys_upsertMany, List.nodup_append]
      refine ⟨h, newKeys_nodup dados _, ?_⟩
      intro a ha hmem
      exact newKeys_not_mem dados _ a hmem ha
    · intro k
      rw [sinkFind_upsertMany, sinkFind_upsertMany, fallback_idem]
  constructor
  · simp only [persistSink_eq_upsertMany]
    exact hmain
  · simp only [persistSink_eq_upsertMany, hmain]

/-- Witness for C2: two records into an empty table, run twice. -/
theorem persist_idempotent_witness :
    persistSink (persistSink [] [rw1, rw2]) [rw1, rw2] =
      persistSink [] [rw1, rw2] ∧
    (persistSink (persistSink [] [rw1, rw2]) [rw1, rw2]).length =
      (persistSink [] [rw1, rw2]).length :=
  persist_idempotent [] [rw1, rw2] (by simp [sinkKeys])

/-- The sanitization pass leaves no NUL character in a string cell. -/
theorem stripNul_no_nul (s : String) : nulChar ∉ (stripNul s).data := by
  show nulChar ∉ s.data.filter (fun c => c ≠ nulChar)
  intro h
  have hp := List.of_mem_filter h
  simp at hp

theorem stripNulCell_ok (v : NValue) :
    (∃ s, stripNulCell v = NValue.str s ∧ nulChar ∉ s.data) ∨
      stripNulCell v = NValue.null := by
  cases v with
  | str s => exact Or.inl ⟨stripNul s, rfl, stripNul_no_nul s⟩
  | null => exact Or.inr rfl

theorem prepare_record_data_cad (r : RawRecord) :
    (prepare_record r).data_cad =
      stripNulCell (dataCadPass (NValue.str (pyStr r.data_cad))) := rfl

theorem dataCadPass_none {s : String} (h : to_datetime s = none) :
    dataCadPass (NValue.str s) = NValue.null := by
  rw [show dataCadPass (NValue.str s) =
    (match to_datetime s with
      | some d => NValue.str d.isoformat
      | none => NValue.null) from rfl, h]

/-- C5: every value of every record produced by the normalization
stage is either a string holding no NUL character or an explicit null —
never a raw (non-string, non-null) artifact; and a registration date that
is null, or whose text `pd.to_datetime` cannot parse, becomes an explicit
null.  All stages are total functions, so a date parse failure cannot
abort the run. -/
theorem prepare_data_invariant :
    (∀ rs : List RawRecord, ∀ nr ∈ prepare_data rs, ∀ v ∈ nr.values,
      (∃ s, v = NValue.str s ∧ nulChar ∉ s.data) ∨ v = NValue.null) ∧
    (∀ r : RawRecord, to_datetime (pyStr r.data_cad) = none →
      (prepare_record r).data_cad = NValue.null) ∧
    (∀ r : RawRecord, r.data_cad = RawValue.vnull →
      (prepare_record r).data_cad = NValue.null) := by
  refine ⟨?_, ?_, ?_⟩
  · intro rs nr hnr v hv
    simp only [prepare_data, List.mem_map] at hnr
    obtain ⟨r, _, rfl⟩ := hnr
    simp only [prepare_record, NRecord.values, List.mem_cons,
      List.not_mem_nil, or_false] at hv
    rcases hv with rfl | rfl | rfl | rfl | rfl | rfl <;> exact stripNulCell_ok _
  · intro r h
    rw [prepare_record_data_cad, dataCadPass_none h]
    rfl
  · intro r h
    have hnone : to_datetime (pyStr r.data_cad) = none := by
      rw [h]
      decide
    rw [prepare_record_data_cad, dataCadPass_none hnone]
    rfl

/-- Witness for C5: the `documento` value (carrying a NUL in the raw
record) satisfies the invariant, and a null registration date becomes an
explicit null. -/
theorem prepare_data_invariant_witness :
    ((∃ s, (prepare_record rexClean).documento = NValue.str s ∧
        nulChar ∉ s.data) ∨
      (prepare_record rexClean).documento = NValue.null) ∧
    (prepare_record rexNull).data_cad = NValue.null :=
  ⟨prepare_data_invariant.1 [rexClean] (prepare_record rexClean)
      (by simp [prepare_data]) _ (by decide),
    prepare_data_invariant.2.2 rexNull rfl⟩

/-- C6 counterexample: neither null policy the claim offers holds: on
the record `rexNull` (whose `nome` is null), normalization yields the text
`"nan"`, which is neither empty text nor an explicit null — so the
disjunction "all nulls become empty text, or all nulls become explicit
null" is false. -/
theorem null_policy_counterexample : ¬ (nullsToEmpty ∨ nullsToNull) := by
  rintro (h | h)
  · exact absurd (h rexNull Col.nome rfl) (by decide)
  · exact absurd (h rexNull Col.nome rfl) (by decide)

/-- C6 amended: normalization coerces values to text, but absent/null
source values are split across two treatments in one run: a null
registration date becomes an explicit null, while a null in any other
column becomes the text `"nan"` (the stringification of the NaN
placeholder) — neither of the claim's two uniform policies. -/
theorem prepare_nulls_mixed (r : RawRecord) (c : Col)
    (h : r.get c = RawValue.vnull) :
    (prepare_record r).get c =
      (if c = Col.data_cad then NValue.null else NValue.str "nan") := by
  cases c <;>
    simp only [RawRecord.get] at h <;>
    simp only [prepare_record, NRecord.get] <;>
    rw [h] <;> decide

/-- Witness for the amended C6: both branches at the record `rexNull`. -/
theorem prepare_nulls_mixed_witness :
    (prepare_record rexNull).get Col.nome =
      (if Col.nome = Col.data_cad then NValue.null else NValue.str "nan") ∧
    (prepare_record rexNull).get Col.data_cad =
      (if Col.data_cad = Col.data_cad then NValue.null
        else NValue.str "nan") :=
  ⟨prepare_nulls_mixed rexNull Col.nome rfl,
    prepare_nulls_mixed rexNull Col.data_cad rfl⟩

end SyncApi
